import Mathlib

/-!
Verification of the daily snapshot generator (`generator/generate_daily.py`)
of the qianxiaoying-dashboard repository.

Prices and derived quantities are modelled as exact rationals (`ℚ`); absent
values are `Option`; dates are `Nat` in `YYYYMMDD` form (lexicographic order
on equal-length digit strings agrees with numeric order, so sorting is
unchanged).  Python dicts are modelled as association lists with
insertion-order semantics (`upsert`), matching dict iteration order.
-/

set_option maxHeartbeats 1000000

namespace QXY

/-- One adjusted OHLC bar: `{"date": td, "o": ..., "h": ..., "l": ..., "c": ...}`
as built in `generate_daily.main` (raw price × adjustment factor). -/
structure Bar where
  date : Nat
  o : ℚ
  h : ℚ
  l : ℚ
  c : ℚ
  deriving DecidableEq, Repr

/-- `_board(ts_code)`: 科创板 for `.SH` codes starting `688`, 创业板 for `.SZ`
codes starting `300`, 主板 otherwise. -/
def board (ts_code : String) : String :=
  let cs := ts_code.toList
  let code := cs.takeWhile (fun ch => ch ≠ '.')
  if decide (".SH".toList <:+ cs) && decide ("688".toList <+: code) then "科创板"
  else if decide (".SZ".toList <:+ cs) && decide ("300".toList <+: code) then "创业板"
  else "主板"

/-- `_cap_bucket_yi(mktcap_yi)`. -/
def cap_bucket_yi (mktcap_yi : Option ℚ) : Option String :=
  match mktcap_yi with
  | none => none
  | some x => if x < 50 then some "微盘" else if x ≤ 200 then some "中盘" else some "大盘"

/-- `_turn_bucket_yi(turnover_yi)`. -/
def turn_bucket_yi (turnover_yi : Option ℚ) : Option String :=
  match turnover_yi with
  | none => none
  | some x => if x > 10 then some ">10亿" else if x ≥ 3 then some "3-10亿" else some "<3亿"

/-- `_median(nums)`: drop `None`, sort ascending, middle element (mean of the
two middle elements for even length); `None` on empty input. -/
def median (nums : List (Option ℚ)) : Option ℚ :=
  let xs := (nums.filterMap id).mergeSort (fun a b => a ≤ b)
  if xs.isEmpty then none
  else
    let n := xs.length
    let mid := n / 2
    if n % 2 = 1 then some (xs.getD mid 0)
    else some ((xs.getD (mid - 1) 0 + xs.getD mid 0) / 2)

/-- `limit_up_threshold(code)`: 19.8 on the two growth boards, 9.8 otherwise. -/
def limit_up_threshold (code : String) : ℚ :=
  if board code = "创业板" ∨ board code = "科创板" then 198/10 else 98/10

/-- `_slice_last(arr, n)`: `arr[-n:]` when `len(arr) ≥ n`, else a copy of `arr`. -/
def slice_last (arr : List α) (n : Nat) : List α :=
  arr.drop (arr.length - n)

/-- `_hhv(vals)`: `max(vals)` or `None` on empty. -/
def hhv (vals : List ℚ) : Option ℚ := vals.max?

/-- `_llv(vals)`: `min(vals)` or `None` on empty. -/
def llv (vals : List ℚ) : Option ℚ := vals.min?

/-- `_ma(vals, n)`: mean of the last `n` values, `None` if fewer than `n`. -/
def ma (vals : List ℚ) (n : Nat) : Option ℚ :=
  if vals.length < n then none
  else some ((slice_last vals n).sum / (n : ℚ))

/-- Close of the last bar (callers establish nonemptiness; `0` is never
observable through the guarded call sites). -/
def lastc (arr : List Bar) : ℚ := ((arr.getLast?).map Bar.c).getD 0

/-- `calc_pos_120(code)`: position of the latest close inside the trailing
120-bar high/low range; `None` on an empty window or a flat range. -/
def calc_pos_120 (arr : List Bar) : Option ℚ :=
  let arr120 := slice_last arr 120
  match hhv (arr120.map Bar.h), llv (arr120.map Bar.l) with
  | some hi, some lo =>
      if hi = lo then none
      else some ((lastc arr120 - lo) / (hi - lo))
  | _, _ => none

/-- `wide_box_120(code)`: trailing 120-bar window has ≥60 bars, non-degenerate
height, and both the mean absolute deviation of closes from the midpoint and
the close range, normalized by the height, are ≤ 0.30. -/
def wide_box_120 (arr : List Bar) : Bool :=
  let arr120 := slice_last arr 120
  if arr120.length < 60 then false
  else
    match hhv (arr120.map Bar.h), llv (arr120.map Bar.l) with
    | some upper, some lower =>
        if upper = lower then false
        else
          let height := upper - lower
          let mid := (upper + lower) / 2
          let mean_abs_dev := ((arr120.map (fun z => |z.c - mid|)).sum / (arr120.length : ℚ)) / height
          let closes := arr120.map Bar.c
          let band_width := ((hhv closes).getD 0 - (llv closes).getD 0) / height
          decide (mean_abs_dev ≤ 30/100 ∧ band_width ≤ 30/100)
    | _, _ => false

/-- `box_breakout_120(code)`: with ≥60 bars in the trailing 120-bar window, the
latest close exceeds 1.005 × the highest high of all but the last bar. -/
def box_breakout_120 (arr : List Bar) : Bool :=
  let arr120 := slice_last arr 120
  if arr120.length < 60 then false
  else
    match hhv ((arr120.dropLast).map Bar.h) with
    | none => false
    | some upper => decide (lastc arr120 > upper * (1005/1000))

/-- `new_high_250(code)`: with ≥120 bars in the trailing 250-bar window, the
latest close exceeds 1.003 × the highest high of all but the last bar. -/
def new_high_250 (arr : List Bar) : Bool :=
  let arr250 := slice_last arr 250
  if arr250.length < 120 then false
  else
    match hhv ((arr250.dropLast).map Bar.h) with
    | none => false
    | some prev_high => decide (lastc arr250 > prev_high * (1003/1000))

/-- `ret_nd(code, n)`: `(latest close / close n bars ago) - 1`; `None` with
fewer than `n+1` bars or a zero denominator. -/
def ret_nd (arr : List Bar) (n : Nat) : Option ℚ :=
  if arr.length < n + 1 then none
  else
    let p0 := (arr.getD (arr.length - n - 1) ⟨0, 0, 0, 0, 0⟩).c
    let p1 := lastc arr
    if p0 = 0 then none else some (p1 / p0 - 1)

/-- Backward scan of `limit_streak`: closes most-recent-first; count
consecutive day-over-day gains ≥ `th`, stopping at a zero prior close. -/
def streakAux (th : ℚ) : List ℚ → Nat
  | c1 :: c0 :: rest =>
      if c0 = 0 then 0
      else if (c1 / c0 - 1) * 100 ≥ th then streakAux th (c0 :: rest) + 1
      else 0
  | _ => 0

/-- `limit_streak(code)`: number of consecutive most-recent limit-up gains. -/
def limit_streak (arr : List Bar) (code : String) : Nat :=
  if arr.length < 2 then 0
  else streakAux (limit_up_threshold code) ((arr.map Bar.c).reverse)

/-- `bottom_liftoff(code)`: wide box, position ≤ 0.25, 20-bar MA defined,
≥30 bars, last close above the MA, and the MA above its value 10 bars ago. -/
def bottom_liftoff (arr : List Bar) : Bool :=
  if ¬ wide_box_120 arr then false
  else
    match calc_pos_120 arr with
    | none => false
    | some pos =>
        if pos > 25/100 then false
        else
          let closes := arr.map Bar.c
          match ma closes 20 with
          | none => false
          | some ma20 =>
              if closes.length < 30 then false
              else
                let ma20_prev := ((slice_last closes 30).take 20).sum / 20
                let slope := ma20 - ma20_prev
                decide (lastc arr > ma20 ∧ slope > 0)

/-- The fixed `priority` list of pattern labels. -/
def priority : List String :=
  ["连板", "低位首板", "首板", "120日箱体突破", "历史新高", "低位突破", "箱体底部启动", "高位板"]

/-- Generic first-match scan used by `pick_primary`. -/
def pickFrom : List String → List String → String
  | [], _ => "—"
  | p :: ps, labels => if p ∈ labels then p else pickFrom ps labels

/-- `pick_primary(labels)`: first label of `priority` present in `labels`,
else the sentinel `"—"`. -/
def pick_primary (labels : List String) : String :=
  pickFrom priority labels

/-- Round half to even, as Python `round` on an exact value. -/
def rhe (x : ℚ) : ℤ :=
  let f := ⌊x⌋
  let r := x - f
  if r < 1/2 then f
  else if r > 1/2 then f + 1
  else if f % 2 = 0 then f else f + 1

/-- `round(x, 2)`. -/
def round2 (x : ℚ) : ℚ := (rhe (x * 100) : ℚ) / 100

/-- `round(x, 4)`. -/
def round4 (x : ℚ) : ℚ := (rhe (x * 10000) : ℚ) / 10000

/-- `_to_date_ymd(trade_date)`: `YYYYMMDD ↦ "YYYY-MM-DD"`. -/
def to_date_ymd (d : Nat) : String :=
  let s := toString d
  s.take 4 ++ "-" ++ ((s.drop 4).take 2) ++ "-" ++ ((s.drop 6).take 2)

/-- Dict write: replace the value at an existing key in place, else append
(the position of a key is its first insertion, as in a Python dict). -/
def upsert (m : List (String × α)) (k : String) (v : α) : List (String × α) :=
  match m with
  | [] => [(k, v)]
  | (k', v') :: rest => if k' = k then (k', v) :: rest else (k', v') :: upsert rest k v

/-- Dict built from a list of key/value pairs, later values overwriting. -/
def dictOf (l : List (String × α)) : List (String × α) :=
  l.foldl (fun m kv => upsert m kv.1 kv.2) []

/-- Counter (`cnt[k] = cnt.get(k, 0) + 1`) with dict insertion order. -/
def bump : List (String × Nat) → String → List (String × Nat)
  | [], p => [(p, 1)]
  | (k, v) :: rest, p => if k = p then (k, v + 1) :: rest else (k, v) :: bump rest p

/-- Comparator for `sorted(items, key=lambda kv: kv[1], reverse=True)`. -/
def countDesc (a b : String × Nat) : Bool := decide (b.2 ≤ a.2)

/-- `sorted(items, key=count, reverse=True)[0][0]`, `None` on empty input. -/
def maxByCountFirst (cnt : List (String × Nat)) : Option String :=
  match cnt.mergeSort countDesc with
  | [] => none
  | kv :: _ => some kv.1

/-- The `dominant_pattern` computation: most frequent pattern with the `"—"`
sentinel excluded, falling back to all entries when only `"—"` was counted. -/
def dominant_pattern_of (pattern_cnt : List (String × Nat)) : Option String :=
  if pattern_cnt.isEmpty then none
  else
    let items := pattern_cnt.filter (fun kv => kv.1 ≠ "—")
    let items := if items.isEmpty then pattern_cnt else items
    maxByCountFirst items

/-- A Top200 row as assembled in `main` (fields of the per-stock dict). -/
structure Row where
  ts_code : String
  name : String
  pct_chg : Option ℚ
  mktcap_yi : Option ℚ
  turnover_yi : Option ℚ
  board : String
  pattern : String
  cap_bucket : Option String
  turn_bucket : Option String
  streak : Nat
  pattern_labels : List String
  deriving DecidableEq, Repr

/-- Comparator for `rows.sort(key=lambda x: x.get("pct_chg"), reverse=True)`;
rows reaching the sort all carry a present `pct_chg`. -/
def rowsSortLe (a b : Row) : Bool := decide ((b.pct_chg.getD 0) ≤ (a.pct_chg.getD 0))

/-- Lines 244–247 of `main`: drop rows without `pct_chg`, stable-sort by
`pct_chg` descending, truncate to 200. -/
def select_top200 (rows : List Row) : List Row :=
  ((rows.filter (fun r => r.pct_chg.isSome)).mergeSort rowsSortLe).take 200

/-- One provider `daily` row for the target date (`close`/`amount` nullable). -/
structure DQuote where
  close : Option ℚ
  amount : Option ℚ
  deriving DecidableEq, Repr

/-- The external inputs `main` consumes, keyed the way the code looks them up
(an absent row and a row with a null field are both `none`, which the code
treats identically at every use). `series` is the adjusted OHLC history the
per-code fetch loop assembles. -/
structure RunInput where
  cal : List (Nat × Nat)
  sb : List (String × String)
  dailyAt : String → Option DQuote
  adjAt : String → Option ℚ
  prevCloseAt : String → Option ℚ
  prevAdjAt : String → Option ℚ
  mvAt : String → Option ℚ
  series : String → List Bar

/-- `"ST" in name.upper() or "退" in name.upper()`. -/
def nameFlagsST (name : String) : Bool :=
  let u := name.toList.map Char.toUpper
  decide ("ST".toList <:+: u) || decide ("退".toList <:+: u)

/-- The universe loop (lines 147–160), kept entries. -/
def buildUniverse (sb : List (String × String)) : List String :=
  sb.filterMap fun x =>
    if x.1 = "" then none
    else if decide (".BJ".toList <:+ x.1.toList) then none
    else if nameFlagsST x.2 then none
    else some x.1

/-- The universe loop, `st_set` entries. -/
def buildStSet (sb : List (String × String)) : List String :=
  sb.filterMap fun x =>
    if x.1 = "" then none
    else if decide (".BJ".toList <:+ x.1.toList) then none
    else if nameFlagsST x.2 then some x.1
    else none

/-- The row-assembly loop of `main` (lines 198–237). -/
def buildRows (inp : RunInput) (univ st_set : List String) (hasPrev : Bool) :
    List Row :=
  let daily := dictOf (univ.filterMap (fun c => (inp.dailyAt c).map (fun d => (c, d))))
  daily.filterMap fun cd =>
    if cd.1 ∈ st_set then none
    else
      match cd.2.close, inp.adjAt cd.1 with
      | some close, some af =>
          let adj_close := close * af
          let pct : Option ℚ :=
            match (if hasPrev then inp.prevCloseAt cd.1 else none),
                  (if hasPrev then inp.prevAdjAt cd.1 else none) with
            | some pc, some pa =>
                let p_adj_close := pc * pa
                if p_adj_close ≠ 0 then some ((adj_close / p_adj_close - 1) * 100) else none
            | _, _ => none
          let turnover_yi : Option ℚ := cd.2.amount.map (fun a => a * 1000 / 100000000)
          let total_mv : Option ℚ := none
          let mktcap_yi : Option ℚ := total_mv.map (fun m => m * 10000 / 100000000)
          some {
            ts_code := cd.1
            name := ""
            pct_chg := pct.map round2
            mktcap_yi := mktcap_yi.map round2
            turnover_yi := turnover_yi.map round2
            board := board cd.1
            pattern := "—"
            cap_bucket := if mktcap_yi.isSome then cap_bucket_yi mktcap_yi else none
            turn_bucket := if turnover_yi.isSome then turn_bucket_yi turnover_yi else none
            streak := 0
            pattern_labels := [] }
      | _, _ => none

/-- The per-instrument label accumulation of `main` (lines 484–520),
returning the label list and the streak. -/
def classifyRow (arr : List Bar) (code : String) : List String × Nat :=
  let st := limit_streak arr code
  let l1 : List String := if st ≥ 2 then ["连板"] else if st = 1 then ["首板"] else []
  let is_low : Bool := match calc_pos_120 arr with
    | some p => decide (p ≤ 30/100)
    | none => false
  let arr20 := slice_last arr 20
  let l2 : List String :=
    if arr20.length ≥ 10 then
      match hhv ((arr20.dropLast).map Bar.c) with
      | some prev_hhv =>
          if lastc arr20 > prev_hhv * (1005/1000) ∧ is_low then
            "低位突破" :: (if st = 1 then ["低位首板"] else [])
          else []
      | none => []
    else []
  let l3 : List String := if wide_box_120 arr ∧ box_breakout_120 arr then ["120日箱体突破"] else []
  let l4 : List String := if new_high_250 arr then ["历史新高"] else []
  let r20ok : Bool := match ret_nd arr 20 with
    | some v => decide (v ≥ 50/100)
    | none => false
  let r60ok : Bool := match ret_nd arr 60 with
    | some v => decide (v ≥ 100/100)
    | none => false
  let l5 : List String := if st ≥ 1 ∧ (r20ok ∨ r60ok) then ["高位板"] else []
  let l6 : List String := if bottom_liftoff arr then ["箱体底部启动"] else []
  (l1 ++ l2 ++ l3 ++ l4 ++ l5 ++ l6, st)

/-- Pattern-gallery grouping (`pats.setdefault(p, []).append(r)`). -/
def addPat (m : List (String × List Row)) (p : String) (r : Row) :
    List (String × List Row) :=
  match m with
  | [] => [(p, [r])]
  | (k, rs) :: rest => if k = p then (k, rs ++ [r]) :: rest else (k, rs) :: addPat rest p r

/-- The `pats` dict (lines 560–565): skip falsy or `"—"` patterns, group. -/
def patsOf (top : List Row) : List (String × List Row) :=
  top.foldl (fun m r => if r.pattern = "" ∨ r.pattern = "—" then m else addPat m r.pattern r) []

/-- `x.get("pct_chg") or -999` (a present value of `0` is falsy in Python). -/
def pctOrNeg999 (r : Row) : ℚ :=
  match r.pct_chg with
  | some q => if q = 0 then -999 else q
  | none => -999

/-- Comparator for the gallery sort (`reverse=True` on `pctOrNeg999`). -/
def groupLe (a b : Row) : Bool := decide (pctOrNeg999 b ≤ pctOrNeg999 a)

/-- `kline_120(code)`: the last ≤120 bars as `(date, o, h, l, c)` rows. -/
def kline_120 (arr : List Bar) : List (String × ℚ × ℚ × ℚ × ℚ) :=
  (slice_last arr 120).map fun z =>
    (to_date_ymd z.date, round4 z.o, round4 z.h, round4 z.l, round4 z.c)

/-- A gallery entry of `pattern_groups`. -/
structure GalleryItem where
  ts_code : String
  name : String
  pct_chg : Option ℚ
  kline_120 : List (String × ℚ × ℚ × ℚ × ℚ)
  deriving DecidableEq, Repr

/-- The finished snapshot object `out` (monetary KPIs in integer CNY). -/
structure DailySnapshot where
  date : String
  conclusion : String
  median_mktcap_cny : Option ℤ
  median_turnover_cny : Option ℤ
  dominant_board : Option String
  dominant_pattern : Option String
  top200 : List Row
  pattern_groups : List (String × List GalleryItem)
  deriving DecidableEq, Repr

/-- `open_days`: calendar entries with `is_open == 1`, sorted ascending. -/
def openDaysOf (cal : List (Nat × Nat)) : List Nat :=
  ((cal.filter (fun x => x.2 = 1)).map Prod.fst).mergeSort (fun a b => decide (a ≤ b))

/-- The snapshot `out` assembled by `main` (lines 145–591) once the calendar
guard has passed, given the resolved `open_days`. -/
def snapshotOf (inp : RunInput) (open_days : List Nat) : DailySnapshot :=
  let trade_date := open_days.getLastD 0
  let st_set := buildStSet inp.sb
  let univ := buildUniverse inp.sb
  let hasPrev : Bool := decide (2 ≤ open_days.length)
  let rows0 := buildRows inp univ st_set hasPrev
  let nameMap := dictOf (inp.sb.filterMap (fun x => if x.1 = "" then none else some x))
  let rows := rows0.map (fun r => { r with name := (nameMap.lookup r.ts_code).getD "" })
  let top200 := select_top200 rows
  let top200m := top200.map (fun r =>
    match inp.mvAt r.ts_code with
    | none => r
    | some mv =>
        let mktcap_yi := mv * 10000 / 100000000
        { r with mktcap_yi := some (round2 mktcap_yi)
                 cap_bucket := cap_bucket_yi (some mktcap_yi) })
  let med_mktcap_yi := median (top200m.map Row.mktcap_yi)
  let med_turn_yi := median (top200m.map Row.turnover_yi)
  let board_cnt := top200m.foldl (fun m r => bump m r.board) []
  let dom_board := maxByCountFirst board_cnt
  let top200c := top200m.map (fun r =>
    let cl := classifyRow (inp.series r.ts_code) r.ts_code
    { r with streak := cl.2, pattern := pick_primary cl.1, pattern_labels := cl.1 })
  let pattern_cnt := top200c.foldl (fun m r => bump m r.pattern) []
  let dom_pattern := dominant_pattern_of pattern_cnt
  let concl := "今日赚钱效应：" ++
    (match dom_board with
     | some b => b ++ "占优"
     | none => "") ++
    (match dom_pattern with
     | some p => if p ≠ "—" then "，形态以" ++ p ++ "为主" else "，形态分散"
     | none => "，形态分散")
  let groups := (patsOf top200c).map (fun pr =>
    (pr.1, ((pr.2.mergeSort groupLe).take 8).map (fun it =>
      ({ ts_code := it.ts_code, name := it.name, pct_chg := it.pct_chg,
         kline_120 := kline_120 (inp.series it.ts_code) } : GalleryItem))))
  { date := to_date_ymd trade_date
    conclusion := concl
    median_mktcap_cny := med_mktcap_yi.map (fun m => rhe (m * 100000000))
    median_turnover_cny := med_turn_yi.map (fun m => rhe (m * 100000000))
    dominant_board := dom_board
    dominant_pattern := dom_pattern
    top200 := top200c
    pattern_groups := groups }
/-- The pure core of `main` (lines 136–591): from the fetched inputs either
the fatal empty-calendar error or the finished snapshot.  File writing
(lines 593–610) happens only after `out` exists, so an error here means no
snapshot is emitted. -/
def generate (inp : RunInput) : Except String DailySnapshot :=
  let open_days := openDaysOf inp.cal
  if open_days.isEmpty then
    .error "No open trading days found"
  else
    .ok (snapshotOf inp open_days)

/-! ### Helper lemmas -/

/-- `x` is the maximum of the list. -/
def IsMaxOf (x : ℚ) (l : List ℚ) : Prop := x ∈ l ∧ ∀ y ∈ l, y ≤ x

/-- `x` is the minimum of the list. -/
def IsMinOf (x : ℚ) (l : List ℚ) : Prop := x ∈ l ∧ ∀ y ∈ l, x ≤ y

theorem pickFrom_none (labels : List String) :
    ∀ ps, (∀ p ∈ ps, p ∉ labels) → pickFrom ps labels = "—"
  | [], _ => rfl
  | p :: ps, h => by
      have hp : p ∉ labels := h p (List.mem_cons_self _ _)
      simp only [pickFrom, if_neg hp]
      exact pickFrom_none labels ps fun q hq => h q (List.mem_cons_of_mem _ hq)

theorem pickFrom_mem (labels : List String) :
    ∀ ps q, q ∈ ps → q ∈ labels → pickFrom ps labels ∈ labels ∧ pickFrom ps labels ∈ ps
  | [], q, hq, _ => absurd hq (List.not_mem_nil q)
  | p :: ps, q, hq, hql => by
      by_cases hp : p ∈ labels
      · simp only [pickFrom, if_pos hp]
        exact ⟨hp, List.mem_cons_self _ _⟩
      · simp only [pickFrom, if_neg hp]
        rcases List.mem_cons.mp hq with h | h
        · exact absurd (h ▸ hql) hp
        · have := pickFrom_mem labels ps q h hql
          exact ⟨this.1, List.mem_cons_of_mem _ this.2⟩

theorem pickFrom_min (labels : List String) :
    ∀ (ps : List String) (q : String), q ∈ ps → q ∈ labels →
      ps.indexOf (pickFrom ps labels) ≤ ps.indexOf q
  | [], q, hq, _ => absurd hq (List.not_mem_nil q)
  | p :: ps, q, hq, hql => by
      by_cases hp : p ∈ labels
      · simp [pickFrom, if_pos hp, List.indexOf_cons_self]
      · simp only [pickFrom, if_neg hp]
        have hqs : q ∈ ps := by
          rcases List.mem_cons.mp hq with h | h
          · exact absurd (h ▸ hql) hp
          · exact h
        by_cases he : pickFrom ps labels = p
        · simp [he, List.indexOf_cons_self]
        · have hqp : q ≠ p := fun h => hp (h ▸ hql)
          rw [List.indexOf_cons_ne _ (fun h => he h.symm), List.indexOf_cons_ne _ (fun h => hqp h.symm)]
          exact Nat.succ_le_succ (pickFrom_min labels ps q hqs hql)

/-! ### Claim theorems -/

/-- **C1.** Primary-pattern resolution is deterministic (`pick_primary` is a
function) and respects the fixed priority order 连板, 低位首板, 首板,
120日箱体突破, 历史新高, 低位突破, 箱体底部启动, 高位板: the result is the
present label of least priority index, `"—"` when no priority label is
present, and in particular any label set containing 连板 (multi-day-limit) —
such as one also containing 历史新高 (new-high-250) — resolves to 连板. -/
theorem pick_primary_spec (labels : List String) :
    ("连板" ∈ labels → pick_primary labels = "连板")
    ∧ ((∀ p ∈ priority, p ∉ labels) → pick_primary labels = "—")
    ∧ (∀ q ∈ priority, q ∈ labels →
        pick_primary labels ∈ labels ∧ pick_primary labels ∈ priority ∧
        priority.indexOf (pick_primary labels) ≤ priority.indexOf q) := by
  refine ⟨?_, ?_, ?_⟩
  · intro h
    have : "连板" ∈ priority := by simp [priority]
    simp [pick_primary, priority, pickFrom, if_pos h]
  · intro h
    exact pickFrom_none labels priority h
  · intro q hq hql
    have hm := pickFrom_mem labels priority q hq hql
    exact ⟨hm.1, hm.2, pickFrom_min labels priority q hq hql⟩

/-- Witness for C1: a set carrying both 连板 and 历史新高 resolves to 连板. -/
theorem pick_primary_spec_witness :
    pick_primary ["历史新高", "连板"] = "连板" :=
  (pick_primary_spec ["历史新高", "连板"]).1 (by simp)

/-- **C8.** Turnover bucketing: strictly above 10 (100-million units) is
`">10亿"`, between 3 (inclusive) and 10 (inclusive) is `"3-10亿"`, below 3 is
`"<3亿"`; in particular exactly 10 and exactly 3 both land in `"3-10亿"`. -/
theorem turn_bucket_spec (x : ℚ) :
    (turn_bucket_yi (some x) = some ">10亿" ↔ 10 < x)
    ∧ (turn_bucket_yi (some x) = some "3-10亿" ↔ 3 ≤ x ∧ x ≤ 10)
    ∧ (turn_bucket_yi (some x) = some "<3亿" ↔ x < 3)
    ∧ turn_bucket_yi (some 10) = some "3-10亿"
    ∧ turn_bucket_yi (some 3) = some "3-10亿" := by
  refine ⟨?_, ?_, ?_, by norm_num [turn_bucket_yi], by norm_num [turn_bucket_yi]⟩ <;>
    (simp only [turn_bucket_yi]; split_ifs with h1 h2) <;>
    simp_all <;> linarith

/-- **C10.** The bucket assignments are total and propagate absence
symmetrically: each returns `none` exactly on `none`, and on any numeric
input returns exactly one of its three labels (so an absent turnover yields
an absent bucket, not `"<3亿"`). -/
theorem bucket_total_spec (x : Option ℚ) :
    (cap_bucket_yi x = none ↔ x = none)
    ∧ (turn_bucket_yi x = none ↔ x = none)
    ∧ (∀ q : ℚ, x = some q → ∃ s, cap_bucket_yi x = some s ∧ s ∈ ["微盘", "中盘", "大盘"])
    ∧ (∀ q : ℚ, x = some q → ∃ s, turn_bucket_yi x = some s ∧ s ∈ [">10亿", "3-10亿", "<3亿"]) := by
  refine ⟨?_, ?_, ?_, ?_⟩
  · cases x with
    | none => simp [cap_bucket_yi]
    | some q => simp only [cap_bucket_yi]; split_ifs <;> simp
  · cases x with
    | none => simp [turn_bucket_yi]
    | some q => simp only [turn_bucket_yi]; split_ifs <;> simp
  · rintro q rfl
    simp only [cap_bucket_yi]; split_ifs <;> simp
  · rintro q rfl
    simp only [turn_bucket_yi]; split_ifs <;> simp

/-- Witness for C10 at a present input. -/
theorem bucket_total_spec_witness :
    ∃ s, cap_bucket_yi (some 5) = some s ∧ s ∈ ["微盘", "中盘", "大盘"] :=
  (bucket_total_spec (some 5)).2.2.1 5 rfl

/-- The backward day-over-day close pairs `(later, prior)` scanned by
`limit_streak`, most recent first. -/
def backPairs (arr : List Bar) : List (ℚ × ℚ) :=
  let r := (arr.map Bar.c).reverse
  r.zip r.tail

/-- The continuation condition of the `limit_streak` scan: prior close
nonzero and day-over-day percentage gain at least `th`. -/
def qualB (th : ℚ) (p : ℚ × ℚ) : Bool :=
  decide (p.2 ≠ 0 ∧ (p.1 / p.2 - 1) * 100 ≥ th)

theorem streakAux_eq (th : ℚ) :
    ∀ r : List ℚ, streakAux th r = ((r.zip r.tail).takeWhile (qualB th)).length
  | [] => by simp [streakAux]
  | [c] => by simp [streakAux]
  | c1 :: c0 :: rest => by
      have ih := streakAux_eq th (c0 :: rest)
      by_cases h0 : c0 = 0
      · simp [streakAux, h0, qualB, List.takeWhile]
      · by_cases hq : (c1 / c0 - 1) * 100 ≥ th
        · simp [streakAux, h0, hq, qualB, List.takeWhile, ih, List.zip]
        · simp [streakAux, h0, hq, qualB, List.takeWhile]

theorem limit_streak_eq_takeWhile (arr : List Bar) (code : String) :
    limit_streak arr code =
      ((backPairs arr).takeWhile (qualB (limit_up_threshold code))).length := by
  match arr with
  | [] => simp [limit_streak, backPairs]
  | [b] => simp [limit_streak, backPairs]
  | a :: b :: t =>
      have hlen : ¬ (a :: b :: t : List Bar).length < 2 := by simp
      simp only [limit_streak, if_neg hlen, backPairs]
      exact streakAux_eq _ _

theorem length_backPairs (arr : List Bar) :
    (backPairs arr).length = arr.length - 1 := by
  simp [backPairs, List.length_zip, List.length_tail]

theorem length_takeWhile_eq_of {α : Type} (p : α → Bool) (d : α) (l : List α) (N : Nat)
    (hN : N ≤ l.length)
    (hall : ∀ i, i < N → p (l.getD i d) = true)
    (hstop : N < l.length → p (l.getD N d) = false) :
    (l.takeWhile p).length = N := by
  induction l generalizing N with
  | nil =>
      have h0 : N = 0 := Nat.le_zero.mp hN
      simp [h0, List.takeWhile]
  | cons a t ih =>
      cases N with
      | zero =>
          have := hstop (by simp)
          simp only [List.getD_cons_zero] at this
          simp [List.takeWhile, this]
      | succ n =>
          have ha : p a = true := by
            have := hall 0 (Nat.succ_pos n)
            simpa using this
          simp only [List.takeWhile, ha, List.length_cons]
          have hN' : n ≤ t.length := Nat.le_of_succ_le_succ hN
          rw [ih n hN' (fun i h => by simpa using hall (i + 1) (Nat.succ_lt_succ h))
            (fun h => by simpa using hstop (Nat.succ_lt_succ h))]

/-- **C2.** `limit_streak` counts, scanning backward from the most recent
bar, the consecutive day-over-day adjusted-close gains meeting the
class threshold — 19.8 for the 创业板/科创板 growth segments, 9.8
otherwise — stopping at the first non-qualifying pair or when the pairs run
out; with all of the first `N` backward gains qualifying and the `(N+1)`-th
(when it exists) not qualifying, the result is exactly `N` (the
zero-qualifying-gain case is `N = 0`). -/
theorem limit_streak_spec (arr : List Bar) (code : String) (N : Nat)
    (hN : N ≤ (backPairs arr).length)
    (hall : ∀ i, i < N →
      qualB (if board code = "创业板" ∨ board code = "科创板" then 198/10 else 98/10)
        ((backPairs arr).getD i (0, 0)) = true)
    (hstop : N < (backPairs arr).length →
      qualB (if board code = "创业板" ∨ board code = "科创板" then 198/10 else 98/10)
        ((backPairs arr).getD N (0, 0)) = false) :
    limit_streak arr code = N := by
  have hth : limit_up_threshold code =
      (if board code = "创业板" ∨ board code = "科创板" then 198/10 else 98/10) := rfl
  rw [limit_streak_eq_takeWhile, hth]
  exact length_takeWhile_eq_of _ (0, 0) _ N hN hall hstop

/-- Witness for C2: on closes `10, 10, 11, 12.1` of a main-board code the two
most recent gains are 10% ≥ 9.8% and the third is 0%, so the streak is 2. -/
theorem limit_streak_spec_witness :
    limit_streak
      [⟨20240101, 10, 10, 10, 10⟩, ⟨20240102, 10, 10, 10, 10⟩,
       ⟨20240103, 11, 11, 11, 11⟩, ⟨20240104, 121/10, 121/10, 121/10, 121/10⟩]
      "600000.SH" = 2 := by
  have hbp : backPairs
      [⟨20240101, 10, 10, 10, 10⟩, ⟨20240102, 10, 10, 10, 10⟩,
       ⟨20240103, 11, 11, 11, 11⟩, ⟨20240104, 121/10, 121/10, 121/10, 121/10⟩]
      = [((121:ℚ)/10, (11:ℚ)), ((11:ℚ), (10:ℚ)), ((10:ℚ), (10:ℚ))] := by
    simp [backPairs]
  have hb : board "600000.SH" = "主板" := by decide
  refine limit_streak_spec _ _ 2 (by rw [hbp]; norm_num) ?_ ?_
  · intro i hi
    interval_cases i <;>
      (simp only [hbp, hb, List.getD_cons_zero, List.getD_cons_succ, qualB];
       rw [if_neg (by decide : ¬("主板" = "创业板" ∨ "主板" = "科创板"))]; norm_num)
  · intro h
    simp only [hbp, hb, List.getD_cons_succ, List.getD_cons_zero, qualB]
    rw [if_neg (by decide : ¬("主板" = "创业板" ∨ "主板" = "科创板"))]
    norm_num

/-- **C9.** `limit_streak` is total and never divides by zero: it returns a
count bounded by `max(length − 1, 0)` (truncated `Nat` subtraction), returns
`0` on empty and single-bar series, and when the backward scan meets a zero
prior close after `N` qualifying gains it stops and returns the `N`
accumulated so far. -/
theorem limit_streak_safe (arr : List Bar) (code : String) :
    limit_streak arr code ≤ arr.length - 1
    ∧ (arr.length < 2 → limit_streak arr code = 0)
    ∧ (∀ N, N < (backPairs arr).length →
        (∀ i, i < N → qualB (limit_up_threshold code)
          ((backPairs arr).getD i (0, 0)) = true) →
        ((backPairs arr).getD N (0, 0)).2 = 0 →
        limit_streak arr code = N) := by
  refine ⟨?_, ?_, ?_⟩
  · rw [limit_streak_eq_takeWhile, ← length_backPairs arr]
    exact (List.takeWhile_sublist _).length_le
  · intro h
    simp [limit_streak, if_pos h]
  · intro N h hall hzero
    rw [limit_streak_eq_takeWhile]
    refine length_takeWhile_eq_of _ (0, 0) _ N (Nat.le_of_lt h) hall ?_
    intro _
    simp only [qualB, decide_eq_false_iff_not]
    rintro ⟨hne, -⟩
    exact hne hzero

/-- Witness for C9: a series whose prior close is `0` terminates the scan at
once, returning `0`, within the `length − 1` bound. -/
theorem limit_streak_safe_witness :
    limit_streak [⟨20240101, 0, 0, 0, 0⟩, ⟨20240102, 5, 5, 5, 5⟩] "600000.SH" = 0 := by
  have hbp : backPairs [⟨20240101, 0, 0, 0, 0⟩, ⟨20240102, 5, 5, 5, 5⟩]
      = [((5:ℚ), (0:ℚ))] := by simp [backPairs]
  exact (limit_streak_safe [⟨20240101, 0, 0, 0, 0⟩, ⟨20240102, 5, 5, 5, 5⟩] "600000.SH").2.2
    0 (by rw [hbp]; norm_num) (fun i hi => absurd hi (Nat.not_lt_zero i))
    (by rw [hbp]; rfl)

theorem IsMaxOf_unique {x y : ℚ} {l : List ℚ} (hx : IsMaxOf x l) (hy : IsMaxOf y l) :
    x = y :=
  le_antisymm (hy.2 x hx.1) (hx.2 y hy.1)

theorem IsMinOf_unique {x y : ℚ} {l : List ℚ} (hx : IsMinOf x l) (hy : IsMinOf y l) :
    x = y :=
  le_antisymm (hx.2 y hy.1) (hy.2 x hx.1)

theorem hhv_eq_some_iff {l : List ℚ} {m : ℚ} : hhv l = some m ↔ IsMaxOf m l := by
  have anti : Std.Antisymm ((· : ℚ) ≤ ·) := ⟨fun h h' => le_antisymm h h'⟩
  unfold hhv IsMaxOf
  exact List.max?_eq_some_iff (fun a => le_refl a) (fun a b => max_choice a b)
    (fun a b c => max_le_iff)

theorem llv_eq_some_iff {l : List ℚ} {m : ℚ} : llv l = some m ↔ IsMinOf m l := by
  have anti : Std.Antisymm ((· : ℚ) ≤ ·) := ⟨fun h h' => le_antisymm h h'⟩
  unfold llv IsMinOf
  exact List.min?_eq_some_iff (fun a => le_refl a) (fun a b => min_choice a b)
    (fun a b c => le_min_iff)

theorem hhv_of_ne_nil {l : List ℚ} (h : l ≠ []) : ∃ m, hhv l = some m := by
  cases hm : hhv l with
  | none => exact absurd (List.max?_eq_none_iff.mp hm) h
  | some m => exact ⟨m, rfl⟩

theorem llv_of_ne_nil {l : List ℚ} (h : l ≠ []) : ∃ m, llv l = some m := by
  cases hm : llv l with
  | none => exact absurd (List.min?_eq_none_iff.mp hm) h
  | some m => exact ⟨m, rfl⟩

theorem calc_pos_120_eq (arr : List Bar) :
    calc_pos_120 arr =
      match hhv ((slice_last arr 120).map Bar.h), llv ((slice_last arr 120).map Bar.l) with
      | some hi, some lo =>
          if hi = lo then none
          else some ((lastc (slice_last arr 120) - lo) / (hi - lo))
      | _, _ => none := rfl

theorem wide_box_120_eq (arr : List Bar) :
    wide_box_120 arr =
      if (slice_last arr 120).length < 60 then false
      else
        match hhv ((slice_last arr 120).map Bar.h), llv ((slice_last arr 120).map Bar.l) with
        | some upper, some lower =>
            if upper = lower then false
            else
              decide ((((slice_last arr 120).map
                    (fun z => |z.c - (upper + lower) / 2|)).sum /
                  ((slice_last arr 120).length : ℚ)) / (upper - lower) ≤ 30/100 ∧
                ((hhv ((slice_last arr 120).map Bar.c)).getD 0 -
                    (llv ((slice_last arr 120).map Bar.c)).getD 0) / (upper - lower) ≤ 30/100)
        | _, _ => false := rfl

theorem box_breakout_120_eq (arr : List Bar) :
    box_breakout_120 arr =
      if (slice_last arr 120).length < 60 then false
      else
        match hhv (((slice_last arr 120).dropLast).map Bar.h) with
        | none => false
        | some upper => decide (lastc (slice_last arr 120) > upper * (1005/1000)) := rfl

/-- **C6.** `calc_pos_120` over the trailing 120-bar window equals
`(lastClose − lowestLow) / (highestHigh − lowestLow)` and is an explicit
`none` (not a silent value) exactly on a window below the minimum length
(empty) or a flat range (`highestHigh = lowestLow`); maximum and minimum
exist for every nonempty window, so this covers every series, including
empty and single-bar ones. -/
theorem calc_pos_spec (arr : List Bar) :
    (slice_last arr 120 = [] → calc_pos_120 arr = none)
    ∧ (∀ hi lo : ℚ, IsMaxOf hi ((slice_last arr 120).map Bar.h) →
        IsMinOf lo ((slice_last arr 120).map Bar.l) →
        (hi = lo → calc_pos_120 arr = none)
        ∧ (hi ≠ lo → calc_pos_120 arr =
            some ((lastc (slice_last arr 120) - lo) / (hi - lo))))
    ∧ (slice_last arr 120 ≠ [] → ∃ hi lo : ℚ,
        IsMaxOf hi ((slice_last arr 120).map Bar.h) ∧
        IsMinOf lo ((slice_last arr 120).map Bar.l)) := by
  refine ⟨?_, ?_, ?_⟩
  · intro h
    have h1 : hhv ((slice_last arr 120).map Bar.h) = none := by
      rw [h]
      rfl
    rw [calc_pos_120_eq, h1]
  · intro hi lo hhi hlo
    have h1 : hhv ((slice_last arr 120).map Bar.h) = some hi := hhv_eq_some_iff.mpr hhi
    have h2 : llv ((slice_last arr 120).map Bar.l) = some lo := llv_eq_some_iff.mpr hlo
    constructor
    · intro he
      rw [calc_pos_120_eq, h1, h2]
      simp [he]
    · intro hne
      rw [calc_pos_120_eq, h1, h2]
      simp [hne]
  · intro h
    have hh : (slice_last arr 120).map Bar.h ≠ [] := by simpa using h
    have hl : (slice_last arr 120).map Bar.l ≠ [] := by simpa using h
    obtain ⟨hi, hhi⟩ := hhv_of_ne_nil hh
    obtain ⟨lo, hlo⟩ := llv_of_ne_nil hl
    exact ⟨hi, lo, hhv_eq_some_iff.mp hhi, llv_eq_some_iff.mp hlo⟩

/-- Witness for C6: a single bar with high 2, low 1, close 1.5 positions at
one half of its range. -/
theorem calc_pos_spec_witness :
    calc_pos_120 [⟨20240101, 1, 2, 1, 3/2⟩] = some ((1:ℚ)/2) := by
  have hmax : IsMaxOf 2 ((slice_last [(⟨20240101, 1, 2, 1, 3/2⟩ : Bar)] 120).map Bar.h) := by
    constructor <;> simp [slice_last]
  have hmin : IsMinOf 1 ((slice_last [(⟨20240101, 1, 2, 1, 3/2⟩ : Bar)] 120).map Bar.l) := by
    constructor <;> simp [slice_last]
  have h := ((calc_pos_spec [⟨20240101, 1, 2, 1, 3/2⟩]).2.1 2 1 hmax hmin).2 (by norm_num)
  rw [h]
  norm_num [lastc, slice_last]

/-- **C5.** On a trailing 120-bar window with fewer than 60 bars both
`wide_box_120` and `box_breakout_120` are false; with at least 60 bars,
`wide_box_120` holds iff the window height is non-degenerate and both the
mean absolute deviation of closes from the midpoint and the close range,
each normalized by the height, are at most 0.30, and `box_breakout_120`
holds iff the last close exceeds 1.005 × the highest high over all but the
last bar. -/
theorem box_spec (arr : List Bar) :
    ((slice_last arr 120).length < 60 →
      wide_box_120 arr = false ∧ box_breakout_120 arr = false)
    ∧ (60 ≤ (slice_last arr 120).length →
        (wide_box_120 arr = true ↔
          ∃ hi lo chi clo : ℚ,
            IsMaxOf hi ((slice_last arr 120).map Bar.h) ∧
            IsMinOf lo ((slice_last arr 120).map Bar.l) ∧
            IsMaxOf chi ((slice_last arr 120).map Bar.c) ∧
            IsMinOf clo ((slice_last arr 120).map Bar.c) ∧
            hi ≠ lo ∧
            ((slice_last arr 120).map (fun z => |z.c - (hi + lo) / 2|)).sum /
              ((slice_last arr 120).length : ℚ) / (hi - lo) ≤ 30/100 ∧
            (chi - clo) / (hi - lo) ≤ 30/100)
        ∧ (box_breakout_120 arr = true ↔
          ∃ u : ℚ, IsMaxOf u (((slice_last arr 120).dropLast).map Bar.h) ∧
            lastc (slice_last arr 120) > u * (1005/1000))) := by
  constructor
  · intro h
    constructor
    · rw [wide_box_120_eq, if_pos h]
    · rw [box_breakout_120_eq, if_pos h]
  · intro h60
    have hlt : ¬ (slice_last arr 120).length < 60 := not_lt.mpr h60
    have hne : slice_last arr 120 ≠ [] := by
      intro h
      rw [h] at h60
      simp at h60
    have hneh : (slice_last arr 120).map Bar.h ≠ [] := by simpa using hne
    have hnel : (slice_last arr 120).map Bar.l ≠ [] := by simpa using hne
    have hnec : (slice_last arr 120).map Bar.c ≠ [] := by simpa using hne
    obtain ⟨hi0, hhi0⟩ := hhv_of_ne_nil hneh
    obtain ⟨lo0, hlo0⟩ := llv_of_ne_nil hnel
    obtain ⟨chi0, hchi0⟩ := hhv_of_ne_nil hnec
    obtain ⟨clo0, hclo0⟩ := llv_of_ne_nil hnec
    constructor
    · constructor
      · intro hw
        refine ⟨hi0, lo0, chi0, clo0, hhv_eq_some_iff.mp hhi0, llv_eq_some_iff.mp hlo0,
          hhv_eq_some_iff.mp hchi0, llv_eq_some_iff.mp hclo0, ?_⟩
        rw [wide_box_120_eq, if_neg hlt, hhi0, hlo0, hchi0, hclo0] at hw
        by_cases he : hi0 = lo0
        · simp [he] at hw
        · simp only [if_neg he, decide_eq_true_eq, Option.getD_some] at hw
          exact ⟨he, hw.1, hw.2⟩
      · rintro ⟨hi, lo, chi, clo, hhi, hlo, hchi, hclo, hne', hmad, hband⟩
        have e1 : hi = hi0 := IsMaxOf_unique hhi (hhv_eq_some_iff.mp hhi0)
        have e2 : lo = lo0 := IsMinOf_unique hlo (llv_eq_some_iff.mp hlo0)
        have e3 : chi = chi0 := IsMaxOf_unique hchi (hhv_eq_some_iff.mp hchi0)
        have e4 : clo = clo0 := IsMinOf_unique hclo (llv_eq_some_iff.mp hclo0)
        subst e1 e2 e3 e4
        rw [wide_box_120_eq, if_neg hlt, hhi0, hlo0, hchi0, hclo0]
        simp only [if_neg hne', Option.getD_some, decide_eq_true_eq]
        exact ⟨hmad, hband⟩
    · constructor
      · intro hb
        rw [box_breakout_120_eq, if_neg hlt] at hb
        cases hu : hhv (((slice_last arr 120).dropLast).map Bar.h) with
        | none => rw [hu] at hb; simp at hb
        | some u =>
            rw [hu] at hb
            simp only [decide_eq_true_eq] at hb
            exact ⟨u, hhv_eq_some_iff.mp hu, hb⟩
      · rintro ⟨u, hu, hgt⟩
        have hu' : hhv (((slice_last arr 120).dropLast).map Bar.h) = some u :=
          hhv_eq_some_iff.mpr hu
        rw [box_breakout_120_eq, if_neg hlt, hu']
        simp only [decide_eq_true_eq]
        exact hgt

/-- Witness for C5: the empty series has an empty (hence short) window, so
both box detectors are false. -/
theorem box_spec_witness :
    wide_box_120 ([] : List Bar) = false ∧ box_breakout_120 ([] : List Bar) = false :=
  (box_spec []).1 (by simp [slice_last])

theorem rowsSortLe_trans : ∀ a b c : Row, rowsSortLe a b → rowsSortLe b c → rowsSortLe a c := by
  intro a b c hab hbc
  simp only [rowsSortLe, decide_eq_true_eq] at *
  exact le_trans hbc hab

theorem rowsSortLe_total : ∀ a b : Row, rowsSortLe a b || rowsSortLe b a := by
  intro a b
  rcases le_total (b.pct_chg.getD 0) (a.pct_chg.getD 0) with h | h <;>
    simp [rowsSortLe, h]

/-- **C3.** The ranked output of lines 244–247 contains only rows with a
present `pct_chg`, never exceeds 200 rows, is sorted by `pct_chg`
descending, and is stable: for each percentage value, the rows carrying it
appear as a prefix (in original order) of the rows of the input carrying
that value. -/
theorem select_top200_spec (rows : List Row) :
    (∀ r ∈ select_top200 rows, r.pct_chg.isSome = true)
    ∧ (select_top200 rows).length ≤ 200
    ∧ (select_top200 rows).Pairwise
        (fun a b => b.pct_chg.getD 0 ≤ a.pct_chg.getD 0)
    ∧ (∀ q : ℚ, ∃ rest : List Row,
        (select_top200 rows).filter (fun r => decide (r.pct_chg = some q)) ++ rest =
          rows.filter (fun r => decide (r.pct_chg = some q))) := by
  refine ⟨?_, ?_, ?_, ?_⟩
  · intro r hr
    simp only [select_top200] at hr
    have h1 := List.mem_of_mem_take hr
    have h2 := List.mem_mergeSort.mp h1
    exact (List.mem_filter.mp h2).2
  · simp only [select_top200]
    rw [List.length_take]
    exact min_le_left _ _
  · simp only [select_top200]
    have hp := List.sorted_mergeSort rowsSortLe_trans rowsSortLe_total
      (rows.filter (fun r => r.pct_chg.isSome))
    have hp2 := hp.imp
      (fun h => by simpa only [rowsSortLe, decide_eq_true_eq] using h)
    exact List.Pairwise.sublist (List.take_sublist 200 _) hp2
  · intro q
    simp only [select_top200]
    set F := rows.filter (fun r => r.pct_chg.isSome) with hF
    set P := fun r : Row => decide (r.pct_chg = some q) with hP
    set S := F.mergeSort rowsSortLe with hS
    have hall : ∀ a ∈ F.filter P, P a := fun a ha => (List.mem_filter.mp ha).2
    have hcpair : (F.filter P).Pairwise (fun a b => rowsSortLe a b) := by
      refine List.pairwise_of_forall_mem_list ?_
      intro a ha b hb
      have ha' : a.pct_chg = some q := by simpa [hP, List.mem_filter] using hall a ha
      have hb' : b.pct_chg = some q := by simpa [hP, List.mem_filter] using hall b hb
      simp [rowsSortLe, ha', hb']
    have hc : List.Sublist (F.filter P) S :=
      List.sublist_mergeSort rowsSortLe_trans rowsSortLe_total hcpair (List.filter_sublist F)
    have h1 : List.Sublist (F.filter P) (S.filter P) := by
      have h := hc.filter P
      rwa [List.filter_eq_self.mpr hall] at h
    have hlen : (S.filter P).length = (F.filter P).length :=
      ((List.mergeSort_perm F rowsSortLe).filter P).length_eq
    have heq : S.filter P = F.filter P := (h1.eq_of_length hlen.symm).symm
    refine ⟨(S.drop 200).filter P, ?_⟩
    rw [← List.filter_append, List.take_append_drop, heq, hF,
      List.filter_filter]
    refine List.filter_congr ?_
    intro r _
    by_cases h : r.pct_chg = some q
    · simp [hP, h]
    · simp [hP, h]

/-- Witness for C3: on the empty universe the ranked output is within the
200-row bound. -/
theorem select_top200_spec_witness : (select_top200 []).length ≤ 200 :=
  (select_top200_spec []).2.1

/-- Value stored in the counter dict (`cnt.get(k, 0)`). -/
def valAt : List (String × Nat) → String → Nat
  | [], _ => 0
  | (k, v) :: rest, p => if k = p then v else valAt rest p

/-- Distinct keys, the invariant a Python dict maintains. -/
def KeysOK (m : List (String × Nat)) : Prop := (m.map Prod.fst).Nodup

theorem valAt_bump_self : ∀ (m : List (String × Nat)) (p : String),
    valAt (bump m p) p = valAt m p + 1
  | [], p => by simp [bump, valAt]
  | (k, v) :: rest, p => by
      by_cases h : k = p
      · simp [bump, valAt, h]
      · simp only [bump, if_neg h, valAt, if_neg h]
        exact valAt_bump_self rest p

theorem valAt_bump_ne : ∀ (m : List (String × Nat)) (p q : String), q ≠ p →
    valAt (bump m p) q = valAt m q
  | [], p, q, hq => by
      have hpq : ¬ p = q := fun h => hq h.symm
      simp [bump, valAt, hpq]
  | (k, v) :: rest, p, q, hq => by
      by_cases h : k = p
      · have hpq : ¬ p = q := fun hh => hq hh.symm
        simp [bump, valAt, h, hpq]
      · simp only [bump, if_neg h, valAt]
        by_cases h2 : k = q
        · simp [h2]
        · simp only [if_neg h2]
          exact valAt_bump_ne rest p q hq

theorem keys_bump : ∀ (m : List (String × Nat)) (p : String),
    (bump m p).map Prod.fst =
      if p ∈ m.map Prod.fst then m.map Prod.fst else m.map Prod.fst ++ [p]
  | [], p => by simp [bump]
  | (k, v) :: rest, p => by
      by_cases h : k = p
      · simp [bump, h]
      · have hne : ¬ p = k := fun hh => h hh.symm
        simp only [bump, if_neg h, List.map_cons, List.mem_cons, hne, false_or]
        rw [keys_bump rest p]
        by_cases h2 : p ∈ rest.map Prod.fst
        · simp [h2]
        · simp [h2]

theorem keysOK_bump (m : List (String × Nat)) (p : String) (h : KeysOK m) :
    KeysOK (bump m p) := by
  unfold KeysOK at *
  rw [keys_bump]
  by_cases hp : p ∈ m.map Prod.fst
  · simpa [hp] using h
  · simp only [if_neg hp]
    refine List.Nodup.append h (List.nodup_singleton p) ?_
    intro a ha hb
    rw [List.mem_singleton] at hb
    exact hp (hb ▸ ha)

theorem mem_keys_iff_valAt_entry : ∀ (m : List (String × Nat)) (k : String),
    k ∈ m.map Prod.fst ↔ ∃ v, (k, v) ∈ m
  | [], k => by simp
  | (k', v') :: rest, k => by
      simp only [List.map_cons, List.mem_cons]
      constructor
      · rintro (h | h)
        · exact ⟨v', Or.inl (by simp [h])⟩
        · obtain ⟨v, hv⟩ := (mem_keys_iff_valAt_entry rest k).mp h
          exact ⟨v, Or.inr hv⟩
      · rintro ⟨v, h | h⟩
        · exact Or.inl (congrArg Prod.fst h)
        · exact Or.inr ((mem_keys_iff_valAt_entry rest k).mpr ⟨v, h⟩)

theorem entry_valAt : ∀ (m : List (String × Nat)), KeysOK m →
    ∀ (k : String) (v : Nat), (k, v) ∈ m → valAt m k = v
  | [], _, k, v, h => absurd h (List.not_mem_nil _)
  | (k', v') :: rest, hK, k, v, h => by
      rcases List.mem_cons.mp h with he | ht
      · injection he with h1 h2
        subst h1
        subst h2
        simp [valAt]
      · by_cases hkk : k' = k
        · exfalso
          have : k ∈ rest.map Prod.fst :=
            (mem_keys_iff_valAt_entry rest k).mpr ⟨v, ht⟩
          have hnd := hK
          unfold KeysOK at hnd
          simp only [List.map_cons, List.nodup_cons] at hnd
          exact hnd.1 (hkk ▸ this)
        · simp only [valAt, if_neg hkk]
          have hK' : KeysOK rest := by
            unfold KeysOK at *
            simp only [List.map_cons, List.nodup_cons] at hK
            exact hK.2
          exact entry_valAt rest hK' k v ht

theorem keysOK_foldl_bump : ∀ (prims : List String) (m : List (String × Nat)),
    KeysOK m → KeysOK (prims.foldl bump m)
  | [], m, h => h
  | p :: ps, m, h => keysOK_foldl_bump ps (bump m p) (keysOK_bump m p h)

theorem valAt_foldl_bump : ∀ (prims : List String) (m : List (String × Nat)) (k : String),
    valAt (prims.foldl bump m) k = valAt m k + prims.count k
  | [], m, k => by simp
  | p :: ps, m, k => by
      simp only [List.foldl_cons, valAt_foldl_bump ps (bump m p) k, List.count_cons]
      by_cases h : k = p
      · rw [h, valAt_bump_self]
        simp [Nat.add_assoc, Nat.add_comm 1]
      · rw [valAt_bump_ne m p k h]
        have : ¬ (p == k) = true := by simpa using fun hh => h hh.symm
        simp [this]

theorem mem_keys_foldl_bump : ∀ (prims : List String) (m : List (String × Nat)) (k : String),
    k ∈ (prims.foldl bump m).map Prod.fst ↔ k ∈ m.map Prod.fst ∨ k ∈ prims
  | [], m, k => by simp
  | p :: ps, m, k => by
      simp only [List.foldl_cons, mem_keys_foldl_bump ps (bump m p) k, keys_bump,
        List.mem_cons]
      by_cases hp : p ∈ m.map Prod.fst
      · simp only [if_pos hp]
        constructor
        · rintro (h | h)
          · exact Or.inl h
          · exact Or.inr (Or.inr h)
        · rintro (h | h | h)
          · exact Or.inl h
          · exact Or.inl (h ▸ hp)
          · exact Or.inr h
      · simp only [if_neg hp, List.mem_append, List.mem_singleton]
        tauto

theorem countDesc_trans : ∀ a b c : String × Nat, countDesc a b → countDesc b c → countDesc a c := by
  intro a b c hab hbc
  simp only [countDesc, decide_eq_true_eq] at *
  exact le_trans hbc hab

theorem countDesc_total : ∀ a b : String × Nat, countDesc a b || countDesc b a := by
  intro a b
  rcases Nat.le_total b.2 a.2 with h | h <;> simp [countDesc, h]

theorem maxByCountFirst_spec (cnt : List (String × Nat)) (hne : cnt ≠ []) :
    ∃ kv, kv ∈ cnt ∧ maxByCountFirst cnt = some kv.1 ∧ ∀ x ∈ cnt, x.2 ≤ kv.2 := by
  cases hs : cnt.mergeSort countDesc with
  | nil =>
      exfalso
      have := @List.length_mergeSort (String × Nat) countDesc cnt
      rw [hs] at this
      exact hne (List.length_eq_zero.mp this.symm)
  | cons kv t =>
      have hmem : kv ∈ cnt := List.mem_mergeSort.mp (hs ▸ List.mem_cons_self kv t)
      have hpair := List.sorted_mergeSort countDesc_trans countDesc_total cnt
      rw [hs] at hpair
      have hhead := List.pairwise_cons.mp hpair
      refine ⟨kv, hmem, by simp only [maxByCountFirst, hs], ?_⟩
      intro x hx
      have hx' : x ∈ kv :: t := hs ▸ List.mem_mergeSort.mpr hx
      rcases List.mem_cons.mp hx' with he | ht
      · exact le_of_eq (congrArg Prod.snd he)
      · have := hhead.1 x ht
        simpa [countDesc, decide_eq_true_eq] using this

/-- **C7.** For a non-empty classified top-N list, the dominant pattern is a
primary pattern occurring in the list whose occurrence count is maximal among
the non-sentinel patterns, and it is never the sentinel `"—"` unless every
instrument's pattern is `"—"` (only then does the fallback count the
sentinel). -/
theorem dominant_pattern_spec (top : List Row) (hne : top ≠ []) :
    ∃ d, dominant_pattern_of (top.foldl (fun m r => bump m r.pattern) []) = some d
      ∧ d ∈ top.map Row.pattern
      ∧ ((∃ p ∈ top.map Row.pattern, p ≠ "—") →
          d ≠ "—" ∧ ∀ q ∈ top.map Row.pattern, q ≠ "—" →
            (top.map Row.pattern).count q ≤ (top.map Row.pattern).count d)
      ∧ ((∀ p ∈ top.map Row.pattern, p = "—") → d = "—") := by
  have hfold : top.foldl (fun m r => bump m r.pattern) [] =
      (top.map Row.pattern).foldl bump [] := (List.foldl_map Row.pattern bump top []).symm
  rw [hfold]
  set prims := top.map Row.pattern with hprims
  set cnt := prims.foldl bump [] with hcnt
  have hprimsne : prims ≠ [] := by
    simp only [hprims, ne_eq, List.map_eq_nil]
    exact hne
  have hkeys : ∀ k, k ∈ cnt.map Prod.fst ↔ k ∈ prims := by
    intro k
    rw [hcnt, mem_keys_foldl_bump]
    simp
  have hKok : KeysOK cnt := keysOK_foldl_bump prims [] (by simp [KeysOK])
  have hval : ∀ kv, kv ∈ cnt → kv.2 = prims.count kv.1 := by
    intro kv hkv
    have h1 := entry_valAt cnt hKok kv.1 kv.2 (by simpa using hkv)
    have h2 : valAt cnt kv.1 = prims.count kv.1 := by
      rw [hcnt, valAt_foldl_bump]
      simp [valAt]
    rw [← h1, h2]
  have hentry : ∀ k ∈ prims, (k, prims.count k) ∈ cnt := by
    intro k hk
    obtain ⟨v, hv⟩ := (mem_keys_iff_valAt_entry cnt k).mp ((hkeys k).mpr hk)
    have := hval (k, v) hv
    simp only at this
    rwa [← this]
  have hcntne : cnt ≠ [] := by
    intro h
    obtain ⟨p, hp⟩ := List.exists_mem_of_ne_nil prims hprimsne
    have := (hkeys p).mpr hp
    rw [h] at this
    simp at this
  have hisE : cnt.isEmpty = false := by
    cases hc : cnt with
    | nil => exact absurd hc hcntne
    | cons a t => rfl
  by_cases hA : ∃ p ∈ prims, p ≠ "—"
  · -- some non-sentinel pattern occurs: the filtered items are used
    obtain ⟨p₀, hp₀m, hp₀ne⟩ := hA
    have hp₀cnt : (p₀, prims.count p₀) ∈ cnt := hentry p₀ hp₀m
    have hitems_ne : cnt.filter (fun kv => kv.1 ≠ "—") ≠ [] := by
      intro h
      have : (p₀, prims.count p₀) ∈ cnt.filter (fun kv => kv.1 ≠ "—") :=
        List.mem_filter.mpr ⟨hp₀cnt, by simpa using hp₀ne⟩
      rw [h] at this
      simp at this
    have hitemsE : (cnt.filter (fun kv => kv.1 ≠ "—")).isEmpty = false := by
      cases hc : cnt.filter (fun kv => kv.1 ≠ "—") with
      | nil => exact absurd hc hitems_ne
      | cons a t => rfl
    obtain ⟨kv, hkv_mem, hkv_eq, hkv_max⟩ :=
      maxByCountFirst_spec (cnt.filter (fun kv => kv.1 ≠ "—")) hitems_ne
    have hkv_cnt : kv ∈ cnt := (List.mem_filter.mp hkv_mem).1
    have hkv_ne : kv.1 ≠ "—" := by
      have := (List.mem_filter.mp hkv_mem).2
      simpa using this
    refine ⟨kv.1, ?_, ?_, ?_, ?_⟩
    · simp only [dominant_pattern_of, hisE, Bool.false_eq_true, if_false, hitemsE,
        if_false]
      exact hkv_eq
    · exact (hkeys kv.1).mp ((mem_keys_iff_valAt_entry cnt kv.1).mpr ⟨kv.2, hkv_cnt⟩)
    · intro _
      refine ⟨hkv_ne, ?_⟩
      intro q hq hqne
      have hqcnt : (q, prims.count q) ∈ cnt := hentry q hq
      have hqitems : (q, prims.count q) ∈ cnt.filter (fun kv => kv.1 ≠ "—") :=
        List.mem_filter.mpr ⟨hqcnt, by simpa using hqne⟩
      have := hkv_max _ hqitems
      simpa [hval kv hkv_cnt] using this
    · intro hB
      exact absurd (hB p₀ hp₀m) hp₀ne
  · -- every pattern is the sentinel: the fallback counts it
    push_neg at hA
    have hitems_nil : cnt.filter (fun kv => kv.1 ≠ "—") = [] := by
      rw [List.filter_eq_nil]
      intro kv hkv
      have hk : kv.1 ∈ prims :=
        (hkeys kv.1).mp ((mem_keys_iff_valAt_entry cnt kv.1).mpr ⟨kv.2, hkv⟩)
      simpa using hA kv.1 hk
    obtain ⟨kv, hkv_mem, hkv_eq, _⟩ := maxByCountFirst_spec cnt hcntne
    have hk : kv.1 ∈ prims :=
      (hkeys kv.1).mp ((mem_keys_iff_valAt_entry cnt kv.1).mpr ⟨kv.2, hkv_mem⟩)
    refine ⟨kv.1, ?_, hk, ?_, fun _ => hA kv.1 hk⟩
    · simp only [dominant_pattern_of, hisE, Bool.false_eq_true, if_false, hitems_nil,
        List.isEmpty_nil, if_true]
      exact hkv_eq
    · intro hcontra
      obtain ⟨p, hp, hpne⟩ := hcontra
      exact absurd (hA p hp) hpne

/-- A minimal classified row, used to instantiate C7 concretely. -/
def rowP (p : String) : Row :=
  { ts_code := "", name := "", pct_chg := none, mktcap_yi := none, turnover_yi := none,
    board := "", pattern := p, cap_bucket := none, turn_bucket := none,
    streak := 0, pattern_labels := [] }

/-- Witness for C7: among patterns `—, 连板, 连板` the dominant pattern is a
non-sentinel one with maximal count. -/
theorem dominant_pattern_spec_witness :
    ∃ d, dominant_pattern_of
        ([rowP "—", rowP "连板", rowP "连板"].foldl (fun m r => bump m r.pattern) [])
        = some d
      ∧ d ∈ [rowP "—", rowP "连板", rowP "连板"].map Row.pattern
      ∧ d ≠ "—" := by
  obtain ⟨d, h1, h2, h3, _⟩ :=
    dominant_pattern_spec [rowP "—", rowP "连板", rowP "连板"] (by simp)
  refine ⟨d, h1, h2, ?_⟩
  exact (h3 ⟨"连板", by simp [rowP], by simp⟩).1

theorem generate_eq (inp : RunInput) :
    generate inp =
      if (openDaysOf inp.cal).isEmpty then Except.error "No open trading days found"
      else Except.ok (snapshotOf inp (openDaysOf inp.cal)) := rfl

/-- A run with a usable two-day calendar but an empty instrument universe;
every per-instrument provider lookup is vacuous. -/
def cxInput : RunInput :=
  { cal := [(20240104, 1), (20240105, 1)]
    sb := []
    dailyAt := fun _ => none
    adjAt := fun _ => none
    prevCloseAt := fun _ => none
    prevAdjAt := fun _ => none
    mvAt := fun _ => none
    series := fun _ => [] }

/-- **C4, counterexample.** The claim says an empty instrument universe is
fatal with no snapshot produced; but on a run with a valid calendar and an
empty universe the computation succeeds and yields a snapshot object. -/
theorem generate_empty_universe_not_fatal :
    cxInput.sb = [] ∧ (generate cxInput).isOk = true := by
  constructor
  · rfl
  · have hlen : (openDaysOf cxInput.cal).length = 2 := by
      unfold openDaysOf
      rw [List.length_mergeSort]
      decide
    have h : (openDaysOf cxInput.cal).isEmpty = false := by
      cases he : openDaysOf cxInput.cal with
      | nil => rw [he] at hlen; simp at hlen
      | cons a t => rfl
    rw [generate_eq, h]
    rfl

/-- **C4, amended.** An empty trading-day calendar is fatal: the run reports
an error to the caller and no snapshot object is produced.  An empty
instrument universe is not fatal: whenever the calendar resolves to at least
one open day, the run emits a snapshot whose ranked list is empty. -/
theorem generate_fatal_spec (inp : RunInput) :
    (inp.cal = [] → generate inp = Except.error "No open trading days found")
    ∧ ((openDaysOf inp.cal).isEmpty = false → inp.sb = [] →
        ∃ s, generate inp = Except.ok s ∧ s.top200 = []) := by
  constructor
  · intro h
    rw [generate_eq, h]
    simp [openDaysOf]
  · intro hod hsb
    refine ⟨snapshotOf inp (openDaysOf inp.cal), ?_, ?_⟩
    · rw [generate_eq, hod]
      rfl
    · simp only [snapshotOf, hsb, buildUniverse, buildStSet, buildRows, dictOf,
        select_top200, List.filterMap_nil, List.foldl_nil, List.filter_nil,
        List.mergeSort_nil, List.take_nil, List.map_nil]

/-- Witness for the amended C4 at a concrete empty-calendar input: the run
fails with the calendar error. -/
theorem generate_fatal_spec_witness :
    generate { cxInput with cal := [] } = Except.error "No open trading days found" :=
  (generate_fatal_spec { cxInput with cal := [] }).1 rfl

end QXY
